import Mathlib

/-!
Shallow embedding of the binary field-extraction engine of the
arriraw_legacy_metadata_reader repository
(src/arriraw_legacy_metadata_reader/binaryfiledto.py), together with
theorems settling the specification claims about it.

Conventions of the embedding:
- a Python bytes object is a list of naturals (each byte below 256);
- a Python str is a list of Unicode code points (naturals);
- the BytesIO / BufferedReader cursor is a buffer plus a read position;
- fallible operations (struct.unpack on too few bytes, a missing dict
  key, the constructor type check) return values in Except Err.
-/

deriving instance DecidableEq for Except

namespace ArriRaw

/-- A Python bytes object: a list of byte values. -/
abbrev Bytes := List Nat

/-- A Python str: a list of Unicode code points. -/
abbrev PyStr := List Nat

/-- Byte-order token: the source uses the struct chars < and >, or the
strings little and big for int.from_bytes. -/
inductive ByteOrder
  | little
  | big
deriving DecidableEq, Repr

/-- Value of a byte list read little-endian, least significant byte
first; this is int.from_bytes with byteorder little. -/
def leVal : List Nat → Nat
  | [] => 0
  | b :: rest => b + 256 * leVal rest

/-- Value of a byte list at a given order: int.from_bytes semantics (a
big-endian read is the little-endian read of the reversed list). -/
def orderVal (e : ByteOrder) (bs : List Nat) : Nat :=
  match e with
  | .little => leVal bs
  | .big => leVal bs.reverse

/-- A seekable binary stream: the underlying buffer plus the current
read position (io.BytesIO over the buffer, or the BufferedReader). -/
structure Cursor where
  buf : List Nat
  pos : Nat
deriving DecidableEq, Repr

/-- Python stream read(n): returns at most n bytes starting at the
position and advances by the number of bytes actually returned. -/
def curRead (c : Cursor) (n : Nat) : List Nat × Cursor :=
  let bs := (c.buf.drop c.pos).take n
  (bs, ⟨c.buf, c.pos + bs.length⟩)

/-- Errors surfaced by the embedded engine. -/
inductive Err
  | structShort   -- struct.error: unpack received fewer bytes than calcsize
  | keyMissing    -- KeyError from indexing metadata with the field name
  | badType       -- TypeError from the constructor type check
deriving DecidableEq, Repr

/-- BinaryFileDTO _read_and_unpack, for the fixed-size unsigned integer
formats (B, H, I) that the field catalogs use: read size bytes from the
stream, fail with struct.error unless exactly size bytes were available,
and interpret them at the given order. -/
def readAndUnpackC (c : Cursor) (size : Nat) (e : ByteOrder) :
    Except Err (Nat × Cursor) :=
  let r := curRead c size
  if r.1.length = size then .ok (orderVal e r.1, r.2) else .error .structShort

/-- BinaryFileDTO _determine_endianness: seek to 0, read (and discard)
the 4 magic bytes, read the next 4 bytes as an unsigned 32-bit
little-endian integer, and return the little token iff it equals
0x12345678, else the big token. -/
def determineEndianness (buf : List Nat) : Except Err ByteOrder :=
  let r := curRead ⟨buf, 0⟩ 4
  match readAndUnpackC r.2 4 .little with
  | .error e => .error e
  | .ok p => .ok (if p.1 = 0x12345678 then .little else .big)

/-- Contiguous slice of a buffer: n bytes starting at position a. -/
def bufSlice (buf : List Nat) (a n : Nat) : List Nat := (buf.drop a).take n

/-- Continuation byte test for UTF-8. -/
def isCont (c : Nat) : Bool := 0x80 ≤ c && c ≤ 0xBF

/-- Lower bound for the first continuation byte of a multibyte UTF-8
sequence (strict decoding excludes overlong and surrogate forms). -/
def firstContLo (b : Nat) : Nat :=
  if b = 0xE0 then 0xA0 else if b = 0xF0 then 0x90 else 0x80

/-- Upper bound for the first continuation byte of a multibyte UTF-8
sequence. -/
def firstContHi (b : Nat) : Nat :=
  if b = 0xED then 0x9F else if b = 0xF4 then 0x8F else 0xBF

/-- Validity of the first continuation byte after start byte b. -/
def isFirstCont (b c : Nat) : Bool := firstContLo b ≤ c && c ≤ firstContHi b

/-- Python bytes.decode with utf-8 and the ignore error handler: decode
well-formed (strict) UTF-8 sequences to their code points and drop
malformed bytes. On a malformed sequence this model skips a single byte,
which produces the same output as the CPython handler (which may skip the
maximal subpart at once) because continuation bytes are never valid start
bytes and are then dropped individually. -/
def utf8DecodeIgnore : List Nat → List Nat
  | [] => []
  | b :: rest =>
    if b ≤ 0x7F then b :: utf8DecodeIgnore rest
    else if 0xC2 ≤ b && b ≤ 0xDF && 1 ≤ rest.length && isCont (rest.getD 0 0) then
      ((b - 0xC0) * 0x40 + (rest.getD 0 0 - 0x80)) :: utf8DecodeIgnore (rest.drop 1)
    else if 0xE0 ≤ b && b ≤ 0xEF && 2 ≤ rest.length
        && isFirstCont b (rest.getD 0 0) && isCont (rest.getD 1 0) then
      ((b - 0xE0) * 0x1000 + (rest.getD 0 0 - 0x80) * 0x40 + (rest.getD 1 0 - 0x80))
        :: utf8DecodeIgnore (rest.drop 2)
    else if 0xF0 ≤ b && b ≤ 0xF4 && 3 ≤ rest.length
        && isFirstCont b (rest.getD 0 0) && isCont (rest.getD 1 0) && isCont (rest.getD 2 0) then
      ((b - 0xF0) * 0x40000 + (rest.getD 0 0 - 0x80) * 0x1000
          + (rest.getD 1 0 - 0x80) * 0x40 + (rest.getD 2 0 - 0x80))
        :: utf8DecodeIgnore (rest.drop 3)
    else utf8DecodeIgnore rest
termination_by l => l.length
decreasing_by all_goals (simp [List.length_drop]; try omega)

/-- Python str rstrip with the NUL character. -/
def rstripNul (s : PyStr) : PyStr := (s.reverse.dropWhile (· = 0)).reverse

/-- Python str replace of NUL by the empty string: drop every NUL. -/
def removeNul (s : PyStr) : PyStr := s.filter (· ≠ 0)

/-- BinaryFileDTO _read_string: read length bytes (possibly fewer near
the end of the buffer), reverse them when the resolved order is
little-endian, decode as UTF-8 ignoring invalid sequences, then rstrip
trailing NUL and remove every remaining NUL character. -/
def readStringC (c : Cursor) (length : Nat) (e : ByteOrder) : PyStr × Cursor :=
  let r := curRead c length
  let bs := if e = .little then r.1.reverse else r.1
  (removeNul (rstripNul (utf8DecodeIgnore bs)), r.2)

/-! Code-point constants for the string literals the engine emits. -/

def masterTxt : PyStr := "Master".toList.map Char.toNat

def auxTxt : PyStr := "Aux".toList.map Char.toNat

def inactiveTxt : PyStr := "Inactive".toList.map Char.toNat

def dashTxt : PyStr := "--".toList.map Char.toNat

def frameLineTxt : PyStr := "FrameLine".toList.map Char.toNat

def typeTxt : PyStr := "Type".toList.map Char.toNat

def nameTxt : PyStr := "Name".toList.map Char.toNat

def leftTxt : PyStr := "Left".toList.map Char.toNat

def topTxt : PyStr := "Top".toList.map Char.toNat

def widthTxt : PyStr := "Width".toList.map Char.toNat

def heightTxt : PyStr := "Height".toList.map Char.toNat

def unknownTxt : PyStr := "Unknown".toList.map Char.toNat

def invalidTxt : PyStr := "Invalid".toList.map Char.toNat

def closeTxt : PyStr := "Close".toList.map Char.toNat

def nearCloseTxt : PyStr := "NearClose".toList.map Char.toNat

/-- Key of a frame-line sub-field: the f-string FrameLine{number}{sfx}. -/
def flKey (num sfx : PyStr) : PyStr := frameLineTxt ++ num ++ sfx

/-- A decoded value stored in the metadata dict. The tstopNum
constructor stands for the string produced by the numeric branch of
_convert_data_to_tstop, keeping its raw integer operand symbolic (that
branch formats a floating-point power and no claim depends on its
digits, only on which branch is taken). -/
inductive Value
  | intV (n : Nat)
  | strV (s : PyStr)
  | tstopNum (raw : Int)
deriving DecidableEq, Repr

/-- BinaryFileDTO _read_frameline: read a 4-byte little-endian type
code; 1 maps to Master, 2 to Aux, anything else to Inactive. When
Inactive, the five sub-fields all hold the placeholder and no further
bytes are consumed; otherwise read the 32-byte name at the resolved
order and four unsigned 16-bit little-endian integers. -/
def readFrameline (c : Cursor) (num : PyStr) (e : ByteOrder) :
    Except Err (List (PyStr × Value) × Cursor) :=
  match readAndUnpackC c 4 .little with
  | .error err => .error err
  | .ok (ftype, c1) =>
    let typeLbl := if ftype = 1 then masterTxt else if ftype = 2 then auxTxt else inactiveTxt
    if typeLbl = inactiveTxt then
      .ok ([(flKey num typeTxt, .strV typeLbl),
            (flKey num nameTxt, .strV dashTxt),
            (flKey num leftTxt, .strV dashTxt),
            (flKey num topTxt, .strV dashTxt),
            (flKey num widthTxt, .strV dashTxt),
            (flKey num heightTxt, .strV dashTxt)], c1)
    else
      let rs := readStringC c1 32 e
      match readAndUnpackC rs.2 2 .little with
      | .error err => .error err
      | .ok (leftV, c2) =>
        match readAndUnpackC c2 2 .little with
        | .error err => .error err
        | .ok (topV, c3) =>
          match readAndUnpackC c3 2 .little with
          | .error err => .error err
          | .ok (widthV, c4) =>
            match readAndUnpackC c4 2 .little with
            | .error err => .error err
            | .ok (heightV, c5) =>
              .ok ([(flKey num typeTxt, .strV typeLbl),
                    (flKey num nameTxt, .strV rs.1),
                    (flKey num leftTxt, .intV leftV),
                    (flKey num topTxt, .intV topV),
                    (flKey num widthTxt, .intV widthV),
                    (flKey num heightTxt, .intV heightV)], c5)

/-- Concrete frame-line record: type code 1, name bytes A B padded by 30
NUL bytes, then the little-endian 16-bit values 10 20 30 40. -/
def flBuf : List Nat :=
  [1, 0, 0, 0, 65, 66] ++ List.replicate 30 0 ++ [10, 0, 20, 0, 30, 0, 40, 0]

/-- The frame-line identifier 1A as code points. -/
def oneATxt : PyStr := "1A".toList.map Char.toNat

/-- A 4-byte buffer holding only an inactive frame-line type code. -/
def inactBuf : List Nat := [0, 0, 0, 0]

/-- TStop conversion result: either a sentinel label or the string of
the numeric branch, which formats round(2 ** (((data/1000) - 1)/2), 2);
the numeric branch keeps its integer operand symbolic. -/
inductive TStopOut
  | sentinel (s : PyStr)
  | formula (data : Int)
deriving DecidableEq, Repr

/-- BinaryFileDTO _convert_data_to_tstop: the sentinel dict maps -3, -2
and -1 to NearClose, Close and Invalid; every other value goes to the
exponential formula branch. -/
def convertDataToTstop (data : Int) : TStopOut :=
  if data = -3 then .sentinel nearCloseTxt
  else if data = -2 then .sentinel closeTxt
  else if data = -1 then .sentinel invalidTxt
  else .formula data

/-- BinaryFileDTO _read_tstop, raw value: int.from_bytes of the 4 bytes
read from the stream at the given order. The Python call passes no
signed flag, so int.from_bytes yields a nonnegative (unsigned) value. -/
def readTstopRaw (c : Cursor) (e : ByteOrder) : Int × Cursor :=
  let r := curRead c 4
  ((orderVal e r.1 : Nat), r.2)

/-- BinaryFileDTO _read_tstop: the raw value fed through the sentinel
table or the formula branch. -/
def readTstop (c : Cursor) (e : ByteOrder) : TStopOut × Cursor :=
  let r := readTstopRaw c e
  (convertDataToTstop r.1, r.2)

/-- Decimal digit characters of a natural number, as code points: the
Python f-string rendering of the number. -/
def natDigits (n : Nat) : PyStr := (toString n).toList.map Char.toNat

/-- Per-byte digit pair of the BCD conversion: the f-string of the high
nibble followed by the f-string of the low nibble. -/
def bcdByteDigits (b : Nat) : PyStr := natDigits (b / 16) ++ natDigits (b % 16)

/-- The joined digit string of _bcd_to_str: the per-byte digit pairs in
buffer order, the list of pairs being reversed first when the resolved
order is big-endian. -/
def bcdDigitString (bcd : List Nat) (e : ByteOrder) : PyStr :=
  if e = .big then ((bcd.map bcdByteDigits).reverse).flatten
  else (bcd.map bcdByteDigits).flatten

/-- Python slice s[a:b] (for a below b). -/
def pySlice (s : PyStr) (a b : Nat) : PyStr := (s.take b).drop a

/-- The format-string argument of _bcd_to_str: the source compares it
with the literals date, time and offset and falls through otherwise. -/
inductive BcdFmt
  | date
  | time
  | offset
  | other
deriving DecidableEq, Repr

def slashTxt : PyStr := "/".toList.map Char.toNat

def colonTxt : PyStr := ":".toList.map Char.toNat

/-- BinaryFileDTO _bcd_to_str: build the digit string, then slice it as
a date ([0:4],[4:6],[6:8] joined by the spacer), a time (four 2-digit
groups), an offset (prefix plus [4:6],[6:8]), or return it whole. -/
def bcdToStr (bcd : List Nat) (fmt : BcdFmt) (spacer : PyStr) (e : ByteOrder)
    (pfx : Option PyStr) : PyStr :=
  let ds := bcdDigitString bcd e
  let p := pfx.getD []
  match fmt with
  | .date => pySlice ds 0 4 ++ spacer ++ pySlice ds 4 6 ++ spacer ++ pySlice ds 6 8
  | .time => pySlice ds 0 2 ++ spacer ++ pySlice ds 2 4 ++ spacer ++ pySlice ds 4 6
      ++ spacer ++ pySlice ds 6 8
  | .offset => p ++ pySlice ds 4 6 ++ spacer ++ pySlice ds 6 8
  | .other => ds

/-- Python single-separator str.split: split at every occurrence of the
separator character; splitting the empty string yields one empty part
and separators are not collapsed. -/
def pySplit (sep : Nat) : PyStr → List PyStr
  | [] => [[]]
  | c :: rest =>
    match pySplit sep rest with
    | [] => [[]]
    | h :: t => if c = sep then [] :: h :: t else (c :: h) :: t

/-- Python str.isspace, the character class stripped by str.strip with
no argument: ASCII whitespace and separators plus the Unicode
white-space code points. -/
def pyIsSpace (c : Nat) : Bool :=
  (9 ≤ c && c ≤ 13) || c = 32 || (28 ≤ c && c ≤ 31) || c = 0x85 || c = 0xA0
  || c = 0x1680 || (0x2000 ≤ c && c ≤ 0x200A) || c = 0x2028 || c = 0x2029
  || c = 0x202F || c = 0x205F || c = 0x3000

/-- Python str.strip with no argument: drop leading and trailing
whitespace. -/
def pyStrip (s : PyStr) : PyStr :=
  ((s.dropWhile pyIsSpace).reverse.dropWhile pyIsSpace).reverse

/-- BinaryFileDTO _split_user_string: split the text on semicolons; for
every part that contains a colon, emit the pair formed by the stripped
text before the first colon and the stripped text between the first and
the second colon (the indices 0 and 1 of the split on colons). The dict
comprehension of the source collapses duplicate keys, keeping the last
value; this model returns the item list the comprehension iterates. -/
def splitUserString (s : PyStr) : List (PyStr × PyStr) :=
  (pySplit 59 s).filterMap fun pair =>
    if 58 ∈ pair then
      some (pyStrip ((pySplit 58 pair).getD 0 []), pyStrip ((pySplit 58 pair).getD 1 []))
    else none

/-- Lowercase hexadecimal digit character of a value below 16. -/
def hexDigitChar (n : Nat) : Nat := if n < 10 then 48 + n else 87 + n

/-- The two lowercase hex digit characters of one byte (hexlify). -/
def byteHexPair (b : Nat) : PyStr := [hexDigitChar (b / 16), hexDigitChar (b % 16)]

/-- BinaryFileDTO _bytes_to_time_code: hexlify the bytes (two lowercase
hex digits per byte), reverse the list of 2-character groups, and join
the groups with colons. -/
def bytesToTimeCode (bs : List Nat) : PyStr :=
  List.intercalate colonTxt ((bs.map byteHexPair).reverse)

/-- Datatype tag of a field descriptor, with the tag-specific descriptor
keys (length, number, prefix) attached to the tag: the struct format
characters B, H, I appear as uint with their byte size. The bits, uuid
and float datatypes play no part in the claims and are left out of the
embedded universe. -/
inductive Datatype
  | uint (size : Nat)
  | strT (length : Nat)
  | userStrT (length : Nat)
  | tstopT
  | framelineT (num : PyStr)
  | dateT
  | timeT
  | offsetT (pfx : Option PyStr)
  | timecodeT
deriving DecidableEq, Repr

/-- A field descriptor of a catalog: name, absolute byte offset,
datatype tag, optional byte-order override and optional enumeration
table (the mapping dict, integer raw values to labels). -/
structure Field where
  name : PyStr
  offset : Nat
  datatype : Datatype
  endianness : Option ByteOrder
  mapping : Option (List (Nat × PyStr))
deriving DecidableEq, Repr

/-- The metadata dict: an ordered association list with unique keys by
construction, mirroring insertion-ordered Python dicts. -/
abbrev Dict := List (PyStr × Value)

/-- Python dict assignment d[k] = v: replace the binding in place when
the key is present, else append the new binding. -/
def dictInsert (m : Dict) (k : PyStr) (v : Value) : Dict :=
  match m with
  | [] => [(k, v)]
  | p :: rest => if p.1 == k then (k, v) :: rest else p :: dictInsert rest k v

/-- Python dict.update with the bindings of another dict, in its
insertion order. -/
def dictUpdate (m : Dict) (kvs : Dict) : Dict :=
  kvs.foldl (fun acc p => dictInsert acc p.1 p.2) m

/-- Python dict lookup, as an option. -/
def dictGet (m : Dict) (k : PyStr) : Option Value :=
  (m.find? (fun p => p.1 == k)).map (fun p => p.2)

/-- Python dict.get(raw, Unknown) of an enumeration table applied to a
decoded value: an integer raw value found in the table yields its label;
any other value (an absent integer, or a decoded string, which never
equals an integer key) yields the Unknown sentinel. -/
def mappingGet (tbl : List (Nat × PyStr)) (v : Value) : Value :=
  match v with
  | .intV n =>
    match tbl.lookup n with
    | some lbl => .strV lbl
    | none => .strV unknownTxt
  | _ => .strV unknownTxt

/-- TStop conversion result as a dict value. -/
def tstopValue : TStopOut → Value
  | .sentinel s => .strV s
  | .formula d => .tstopNum d

/-- BinaryFileDTO handle_field: dispatch on the datatype tag with the
cursor seeked to the field offset. The date, time and offset handlers
fix the spacer (slash for dates, colon otherwise); the tstop and
frameline handlers delegate; the default handler struct-unpacks at the
resolved order. -/
def handleField (buf : List Nat) (f : Field) (e : ByteOrder) :
    Except Err (List (PyStr × Value)) :=
  let c : Cursor := ⟨buf, f.offset⟩
  match f.datatype with
  | .uint size =>
    match readAndUnpackC c size e with
    | .error err => .error err
    | .ok p => .ok [(f.name, .intV p.1)]
  | .strT len => .ok [(f.name, .strV (readStringC c len e).1)]
  | .userStrT len => .ok ((splitUserString (readStringC c len e).1).map
      (fun p => (p.1, .strV p.2)))
  | .tstopT => .ok [(f.name, tstopValue (readTstop c e).1)]
  | .framelineT num =>
    match readFrameline c num e with
    | .error err => .error err
    | .ok p => .ok p.1
  | .dateT => .ok [(f.name, .strV (bcdToStr (curRead c 4).1 .date slashTxt e none))]
  | .timeT => .ok [(f.name, .strV (bcdToStr (curRead c 4).1 .time colonTxt e none))]
  | .offsetT pfx => .ok [(f.name, .strV (bcdToStr (curRead c 4).1 .offset colonTxt e pfx))]
  | .timecodeT => .ok [(f.name, .strV (bytesToTimeCode (curRead c 4).1))]

/-- The allow-list test of extract_metadata: a field is selected when no
allow-list was supplied or its name is in the allow-list. -/
def isSelected (allow : Option (List PyStr)) (f : Field) : Bool :=
  match allow with
  | none => true
  | some l => l.any (fun n => n == f.name)

/-- One iteration of the extract_metadata loop body on a selected field:
resolve the byte order (field override else buffer default), run the
handler, merge its output into the accumulated dict, and when the field
declares a mapping replace the entry under the field name by its label
or the Unknown sentinel (indexing the dict with a name the handler did
not write raises KeyError). -/
def extractStep (buf : List Nat) (dflt : ByteOrder) (m : Dict) (f : Field) :
    Except Err Dict :=
  let e := f.endianness.getD dflt
  match handleField buf f e with
  | .error err => .error err
  | .ok out =>
    let m2 := dictUpdate m out
    match f.mapping with
    | none => .ok m2
    | some tbl =>
      match dictGet m2 f.name with
      | none => .error .keyMissing
      | some v => .ok (dictInsert m2 f.name (mappingGet tbl v))

/-- The extract_metadata loop over the remaining catalog fields. -/
def extractFrom (buf : List Nat) (dflt : ByteOrder) (allow : Option (List PyStr)) :
    List Field → Dict → Except Err Dict
  | [], m => .ok m
  | f :: rest, m =>
    if isSelected allow f then
      match extractStep buf dflt m f with
      | .error err => .error err
      | .ok m2 => extractFrom buf dflt allow rest m2
    else extractFrom buf dflt allow rest m

/-- BinaryFileDTO extract_metadata over a catalog, an optional
allow-list and the buffer default byte order. -/
def extractMetadata (buf : List Nat) (fields : List Field)
    (allow : Option (List PyStr)) (dflt : ByteOrder) : Except Err Dict :=
  extractFrom buf dflt allow fields []

/-- Success test of an extraction result. -/
def isOkE : Except Err Dict → Bool
  | .ok _ => true
  | .error _ => false

/-- Datatype tags whose handler always emits exactly the binding of the
field name (the user-string and frame-line handlers instead emit keys
derived from the content or the frame-line number). -/
def writesOwnName : Datatype → Bool
  | .uint _ => true
  | .strT _ => true
  | .userStrT _ => false
  | .tstopT => true
  | .framelineT _ => false
  | .dateT => true
  | .timeT => true
  | .offsetT _ => true
  | .timecodeT => true

/-- The per-field contribution of extract_metadata, independent of the
accumulated dict: the handler output with the mapping replacement
already applied to the entry under the field name. -/
def fieldOutput (buf : List Nat) (dflt : ByteOrder) (f : Field) : Except Err Dict :=
  let e := f.endianness.getD dflt
  match handleField buf f e with
  | .error err => .error err
  | .ok out =>
    match f.mapping with
    | none => .ok out
    | some tbl =>
      match dictGet (dictUpdate [] out) f.name with
      | none => .error .keyMissing
      | some v => .ok (dictInsert (dictUpdate [] out) f.name (mappingGet tbl v))

/-- The per-field contributions of a whole catalog. -/
def fieldOutputs (buf : List Nat) (dflt : ByteOrder) : List Field → Except Err (List Dict)
  | [] => .ok []
  | f :: rest =>
    match fieldOutput buf dflt f with
    | .error err => .error err
    | .ok out =>
      match fieldOutputs buf dflt rest with
      | .error err => .error err
      | .ok outs => .ok (out :: outs)

/-- The keys an extraction step on a field can write: the keys of its
handler output plus, when the field declares a mapping, the field name
itself. -/
def stepKeys (buf : List Nat) (dflt : ByteOrder) (f : Field) : List PyStr :=
  match handleField buf f (f.endianness.getD dflt) with
  | .error _ => []
  | .ok out =>
    out.map (fun p => p.1) ++ (match f.mapping with | none => [] | some _ => [f.name])

/-- The Python runtime values a caller can pass as the buffer argument
of the constructor: a bytes object, an io.BufferedReader (the stream
class produced by open in binary mode), an io.BytesIO or io.FileIO
stream of another class, a bytearray, or None; each carries its byte
content where it has one. -/
inductive PyValue
  | bytesObj (data : List Nat)
  | bufferedReader (data : List Nat)
  | bytesIOStream (data : List Nat)
  | rawFileStream (data : List Nat)
  | byteArrayObj (data : List Nat)
  | noneObj
deriving DecidableEq, Repr

/-- Python isinstance(file, io.BufferedReader): satisfied only by the
BufferedReader class; io.BytesIO and io.FileIO are binary streams of
distinct classes and fail the test. -/
def isBufferedReader : PyValue → Bool
  | .bufferedReader _ => true
  | _ => false

/-- Python isinstance(file, bytes): bytearray is a distinct type. -/
def isBytesObj : PyValue → Bool
  | .bytesObj _ => true
  | _ => false

/-- Modelled from the spec: the classification "open binary stream" of
the failure taxonomy (input is neither bytes nor a stream) covers every
open binary stream object, whatever its io class: BufferedReader,
BytesIO and FileIO streams. -/
def isOpenBinaryStream : PyValue → Bool
  | .bufferedReader _ => true
  | .bytesIOStream _ => true
  | .rawFileStream _ => true
  | _ => false

/-- Modelled from the spec: the classification "byte sequence" of the
failure taxonomy covers the Python byte-sequence types bytes and
bytearray. -/
def isByteSequence : PyValue → Bool
  | .bytesObj _ => true
  | .byteArrayObj _ => true
  | _ => false

/-- The byte content carried by a runtime value. -/
def pyValueData : PyValue → List Nat
  | .bytesObj d => d
  | .bufferedReader d => d
  | .bytesIOStream d => d
  | .rawFileStream d => d
  | .byteArrayObj d => d
  | .noneObj => []

/-- BinaryFileDTO __init__ : keep a BufferedReader as the file, wrap a
bytes object in BytesIO, raise TypeError for anything else; then run
_determine_endianness on the resulting stream. -/
def binaryFileInit (file : PyValue) : Except Err (List Nat × ByteOrder) :=
  if isBufferedReader file then
    match determineEndianness (pyValueData file) with
    | .error err => .error err
    | .ok o => .ok (pyValueData file, o)
  else if isBytesObj file then
    match determineEndianness (pyValueData file) with
    | .error err => .error err
    | .ok o => .ok (pyValueData file, o)
  else .error .badType

def gTxt : PyStr := "G".toList.map Char.toNat

def sevenLbl : PyStr := "Seven".toList.map Char.toNat

/-- A one-byte field with an enumeration table mapping 7 to Seven. -/
def mapFld : Field := ⟨gTxt, 0, .uint 1, none, some [(7, sevenLbl)]⟩

/-- C3 counterexample: a selected string field whose offset plus
declared length exceeds the buffer does not abort the extraction; the
extraction succeeds and stores the silently truncated text. -/
def fTxt : PyStr := "F".toList.map Char.toNat

def demoBuf : List Nat := [65, 66]

def strFld : Field := ⟨fTxt, 0, .strT 5, some .big, none⟩

def shortFld : Field := ⟨fTxt, 0, .uint 4, none, none⟩

def aTxt : PyStr := "A".toList.map Char.toNat

def bTxt : PyStr := "B".toList.map Char.toNat

def fldA : Field := ⟨aTxt, 0, .uint 1, none, none⟩

def fldB : Field := ⟨bTxt, 1, .uint 1, none, none⟩

def demo9Buf : List Nat := [0x41, 0x52, 0x52, 0x49, 0x78, 0x56, 0x34, 0x12]

/-! Basic facts about curRead. -/

theorem curRead_bytes (c : Cursor) (n : Nat) :
    (curRead c n).1 = (c.buf.drop c.pos).take n := rfl

theorem curRead_full (c : Cursor) (n : Nat) (h : c.pos + n ≤ c.buf.length) :
    (curRead c n).1.length = n ∧ (curRead c n).2 = ⟨c.buf, c.pos + n⟩ := by
  have hlen : ((c.buf.drop c.pos).take n).length = n := by
    simp [List.length_take, List.length_drop]
    omega
  constructor
  · simpa [curRead_bytes] using hlen
  · simp [curRead, hlen]

theorem curRead_eq (buf : List Nat) (p n : Nat) (h : p + n ≤ buf.length) :
    curRead ⟨buf, p⟩ n = (bufSlice buf p n, ⟨buf, p + n⟩) := by
  have hlen : ((buf.drop p).take n).length = n := by
    simp [List.length_take, List.length_drop]; omega
  simp [curRead, bufSlice, hlen]

theorem bufSlice_length (buf : List Nat) (p n : Nat) (h : p + n ≤ buf.length) :
    (bufSlice buf p n).length = n := by
  simp [bufSlice, List.length_take, List.length_drop]; omega

theorem readAndUnpackC_eq (buf : List Nat) (p n : Nat) (e : ByteOrder)
    (h : p + n ≤ buf.length) :
    readAndUnpackC ⟨buf, p⟩ n e = .ok (orderVal e (bufSlice buf p n), ⟨buf, p + n⟩) := by
  simp [readAndUnpackC, curRead_eq buf p n h, bufSlice_length buf p n h]

theorem readAndUnpackC_short (buf : List Nat) (p n : Nat) (e : ByteOrder)
    (hn : 0 < n) (h : buf.length < p + n) :
    readAndUnpackC ⟨buf, p⟩ n e = .error .structShort := by
  have hlen : ((buf.drop p).take n).length ≠ n := by
    simp only [List.length_take, List.length_drop]
    omega
  simp only [readAndUnpackC, curRead]
  rw [if_neg hlen]

theorem utf8_ascii (l : List Nat) (h : ∀ b ∈ l, b ≤ 0x7F) : utf8DecodeIgnore l = l := by
  induction l with
  | nil => simp [utf8DecodeIgnore]
  | cons b rest ih =>
    have hb : b ≤ 0x7F := h b (by simp)
    rw [utf8DecodeIgnore]
    simp [hb, ih (fun x hx => h x (by simp [hx]))]

/-- Behaviour of the frame-line reader for an active type code (1 or 2)
with the whole 44-byte record inside the buffer. -/
theorem readFrameline_active (buf : List Nat) (pos : Nat) (num : PyStr) (e : ByteOrder)
    (t : Nat) (h : pos + 44 ≤ buf.length) (ht : leVal (bufSlice buf pos 4) = t)
    (h12 : t = 1 ∨ t = 2) :
    readFrameline ⟨buf, pos⟩ num e =
      .ok ([(flKey num typeTxt, .strV (if t = 1 then masterTxt else auxTxt)),
            (flKey num nameTxt, .strV (removeNul (rstripNul (utf8DecodeIgnore
              (if e = .little then (bufSlice buf (pos + 4) 32).reverse
               else bufSlice buf (pos + 4) 32))))),
            (flKey num leftTxt, .intV (leVal (bufSlice buf (pos + 36) 2))),
            (flKey num topTxt, .intV (leVal (bufSlice buf (pos + 38) 2))),
            (flKey num widthTxt, .intV (leVal (bufSlice buf (pos + 40) 2))),
            (flKey num heightTxt, .intV (leVal (bufSlice buf (pos + 42) 2)))],
           ⟨buf, pos + 44⟩) := by
  have h1 : readAndUnpackC ⟨buf, pos⟩ 4 .little = .ok (t, ⟨buf, pos + 4⟩) := by
    rw [readAndUnpackC_eq buf pos 4 .little (by omega)]
    simp [orderVal, ht]
  have h2 : curRead ⟨buf, pos + 4⟩ 32 = (bufSlice buf (pos + 4) 32, ⟨buf, pos + 36⟩) := by
    have e1 : pos + 4 + 32 = pos + 36 := by omega
    have := curRead_eq buf (pos + 4) 32 (by omega)
    rwa [e1] at this
  have h3 : readAndUnpackC ⟨buf, pos + 36⟩ 2 .little =
      .ok (leVal (bufSlice buf (pos + 36) 2), ⟨buf, pos + 38⟩) := by
    have e1 : pos + 36 + 2 = pos + 38 := by omega
    have := readAndUnpackC_eq buf (pos + 36) 2 .little (by omega)
    rw [e1] at this; simpa [orderVal] using this
  have h4 : readAndUnpackC ⟨buf, pos + 38⟩ 2 .little =
      .ok (leVal (bufSlice buf (pos + 38) 2), ⟨buf, pos + 40⟩) := by
    have e1 : pos + 38 + 2 = pos + 40 := by omega
    have := readAndUnpackC_eq buf (pos + 38) 2 .little (by omega)
    rw [e1] at this; simpa [orderVal] using this
  have h5 : readAndUnpackC ⟨buf, pos + 40⟩ 2 .little =
      .ok (leVal (bufSlice buf (pos + 40) 2), ⟨buf, pos + 42⟩) := by
    have e1 : pos + 40 + 2 = pos + 42 := by omega
    have := readAndUnpackC_eq buf (pos + 40) 2 .little (by omega)
    rw [e1] at this; simpa [orderVal] using this
  have h6 : readAndUnpackC ⟨buf, pos + 42⟩ 2 .little =
      .ok (leVal (bufSlice buf (pos + 42) 2), ⟨buf, pos + 44⟩) := by
    have e1 : pos + 42 + 2 = pos + 44 := by omega
    have := readAndUnpackC_eq buf (pos + 42) 2 .little (by omega)
    rw [e1] at this; simpa [orderVal] using this
  rcases h12 with rfl | rfl
  · simp [readFrameline, h1, readStringC, h2, h3, h4, h5, h6,
      show masterTxt ≠ inactiveTxt by decide]
  · simp [readFrameline, h1, readStringC, h2, h3, h4, h5, h6,
      show auxTxt ≠ inactiveTxt by decide]

/-- Behaviour of the frame-line reader for an inactive type code: the
five sub-fields hold the placeholder and only the 4 type bytes are
consumed. -/
theorem readFrameline_inactive (buf : List Nat) (pos : Nat) (num : PyStr) (e : ByteOrder)
    (t : Nat) (h : pos + 4 ≤ buf.length) (ht : leVal (bufSlice buf pos 4) = t)
    (hn1 : t ≠ 1) (hn2 : t ≠ 2) :
    readFrameline ⟨buf, pos⟩ num e =
      .ok ([(flKey num typeTxt, .strV inactiveTxt),
            (flKey num nameTxt, .strV dashTxt),
            (flKey num leftTxt, .strV dashTxt),
            (flKey num topTxt, .strV dashTxt),
            (flKey num widthTxt, .strV dashTxt),
            (flKey num heightTxt, .strV dashTxt)], ⟨buf, pos + 4⟩) := by
  have h1 : readAndUnpackC ⟨buf, pos⟩ 4 .little = .ok (t, ⟨buf, pos + 4⟩) := by
    rw [readAndUnpackC_eq buf pos 4 .little (by omega)]
    simp [orderVal, ht]
  simp [readFrameline, h1, hn1, hn2]

/-- C2 counterexample: the decoded frame-line record is not independent
of the resolved byte order. On the same active record the big-endian
resolved order yields the name AB while the little-endian resolved order
yields BA (the name bytes are reversed before decoding when the
resolved order is little-endian), so the two decodes differ. -/
theorem claim_C2_counterexample :
    readFrameline ⟨flBuf, 0⟩ oneATxt ByteOrder.big =
      .ok ([(flKey oneATxt typeTxt, .strV masterTxt),
            (flKey oneATxt nameTxt, .strV [65, 66]),
            (flKey oneATxt leftTxt, .intV 10),
            (flKey oneATxt topTxt, .intV 20),
            (flKey oneATxt widthTxt, .intV 30),
            (flKey oneATxt heightTxt, .intV 40)], ⟨flBuf, 44⟩)
    ∧ readFrameline ⟨flBuf, 0⟩ oneATxt ByteOrder.little =
      .ok ([(flKey oneATxt typeTxt, .strV masterTxt),
            (flKey oneATxt nameTxt, .strV [66, 65]),
            (flKey oneATxt leftTxt, .intV 10),
            (flKey oneATxt topTxt, .intV 20),
            (flKey oneATxt widthTxt, .intV 30),
            (flKey oneATxt heightTxt, .intV 40)], ⟨flBuf, 44⟩)
    ∧ readFrameline ⟨flBuf, 0⟩ oneATxt ByteOrder.little ≠
        readFrameline ⟨flBuf, 0⟩ oneATxt ByteOrder.big := by
  have hbig := readFrameline_active flBuf 0 oneATxt .big 1 (by decide) (by decide) (Or.inl rfl)
  have hlit := readFrameline_active flBuf 0 oneATxt .little 1 (by decide) (by decide) (Or.inl rfl)
  have hsl : bufSlice flBuf 4 32 = [65, 66] ++ List.replicate 30 0 := by decide
  have hnb : removeNul (rstripNul (utf8DecodeIgnore (bufSlice flBuf 4 32))) = [65, 66] := by
    rw [utf8_ascii _ (by decide)]; decide
  have hnl : removeNul (rstripNul (utf8DecodeIgnore ((bufSlice flBuf 4 32).reverse)))
      = [66, 65] := by
    rw [utf8_ascii _ (by decide)]; decide
  rw [hbig, hlit]
  simp only [show (ByteOrder.big = ByteOrder.little) = False by simp,
    show (ByteOrder.little = ByteOrder.little) = True by simp, if_true, if_false,
    ite_true, ite_false, hnb, hnl]
  refine ⟨?_, ?_, ?_⟩
  · decide
  · decide
  · decide

/-- C2 amended: the frame-line type code and the four 16-bit integers
are read little-endian regardless of the resolved byte order, so the
decoded record with the Name entry removed (and the final cursor) is
independent of the resolved byte order; the 32-byte name alone is
decoded at the resolved order, its bytes being reversed first exactly
when that order is little-endian. -/
theorem claim_C2_amended (c : Cursor) (num : PyStr) (e1 e2 : ByteOrder) :
    (readFrameline c num e1).map
        (fun p => (p.1.filter (fun kv => !(kv.1 == flKey num nameTxt)), p.2))
      = (readFrameline c num e2).map
        (fun p => (p.1.filter (fun kv => !(kv.1 == flKey num nameTxt)), p.2)) := by
  have hkey : ∀ sfx : PyStr, sfx ≠ nameTxt → (flKey num sfx == flKey num nameTxt) = false := by
    intro sfx hs
    apply beq_false_of_ne
    intro hcontra
    simp only [flKey] at hcontra
    exact hs (List.append_cancel_left hcontra)
  have hcur : ∀ cc : Cursor, (readStringC cc 32 e1).2 = (readStringC cc 32 e2).2 := by
    intro cc; simp [readStringC]
  cases hr : readAndUnpackC c 4 .little with
  | error err => simp [readFrameline, hr]
  | ok p =>
    obtain ⟨ftype, c1⟩ := p
    by_cases hty :
        (if ftype = 1 then masterTxt else if ftype = 2 then auxTxt else inactiveTxt)
          = inactiveTxt
    · simp [readFrameline, hr, hty]
    · simp only [readFrameline, hr]
      rw [if_neg hty, if_neg hty]
      rw [← hcur c1]
      cases h2 : readAndUnpackC (readStringC c1 32 e1).2 2 .little with
      | error err => simp [h2]
      | ok p2 =>
        obtain ⟨leftV, c2⟩ := p2
        try simp only [h2]
        cases h3 : readAndUnpackC c2 2 .little with
        | error err => simp [h3]
        | ok p3 =>
          obtain ⟨topV, c3⟩ := p3
          try simp only [h3]
          cases h4 : readAndUnpackC c3 2 .little with
          | error err => simp [h4]
          | ok p4 =>
            obtain ⟨widthV, c4⟩ := p4
            try simp only [h4]
            cases h5 : readAndUnpackC c4 2 .little with
            | error err => simp [h5]
            | ok p5 =>
              obtain ⟨heightV, c5⟩ := p5
              try simp only [h5]
              simp [Except.map, List.filter, hkey typeTxt (by decide),
                hkey leftTxt (by decide), hkey topTxt (by decide),
                hkey widthTxt (by decide), hkey heightTxt (by decide)]

/-- C8: a 4-byte little-endian type code of 1 yields the Master label (2
yields Aux) followed by the trimmed 32-byte name and the four 16-bit
little-endian integers Left, Top, Width, Height, consuming 44 bytes in
all; any other type code yields the Inactive label with all five
sub-fields set to the placeholder, consuming no bytes beyond the 4-byte
type code. -/
theorem claim_C8_frameline (buf : List Nat) (pos : Nat) (num : PyStr) (e : ByteOrder)
    (t : Nat) :
    (pos + 44 ≤ buf.length → leVal (bufSlice buf pos 4) = 1 →
      readFrameline ⟨buf, pos⟩ num e =
        .ok ([(flKey num typeTxt, .strV masterTxt),
              (flKey num nameTxt, .strV (removeNul (rstripNul (utf8DecodeIgnore
                (if e = .little then (bufSlice buf (pos + 4) 32).reverse
                 else bufSlice buf (pos + 4) 32))))),
              (flKey num leftTxt, .intV (leVal (bufSlice buf (pos + 36) 2))),
              (flKey num topTxt, .intV (leVal (bufSlice buf (pos + 38) 2))),
              (flKey num widthTxt, .intV (leVal (bufSlice buf (pos + 40) 2))),
              (flKey num heightTxt, .intV (leVal (bufSlice buf (pos + 42) 2)))],
             ⟨buf, pos + 44⟩))
    ∧ (pos + 44 ≤ buf.length → leVal (bufSlice buf pos 4) = 2 →
      readFrameline ⟨buf, pos⟩ num e =
        .ok ([(flKey num typeTxt, .strV auxTxt),
              (flKey num nameTxt, .strV (removeNul (rstripNul (utf8DecodeIgnore
                (if e = .little then (bufSlice buf (pos + 4) 32).reverse
                 else bufSlice buf (pos + 4) 32))))),
              (flKey num leftTxt, .intV (leVal (bufSlice buf (pos + 36) 2))),
              (flKey num topTxt, .intV (leVal (bufSlice buf (pos + 38) 2))),
              (flKey num widthTxt, .intV (leVal (bufSlice buf (pos + 40) 2))),
              (flKey num heightTxt, .intV (leVal (bufSlice buf (pos + 42) 2)))],
             ⟨buf, pos + 44⟩))
    ∧ (pos + 4 ≤ buf.length → leVal (bufSlice buf pos 4) = t → t ≠ 1 → t ≠ 2 →
      readFrameline ⟨buf, pos⟩ num e =
        .ok ([(flKey num typeTxt, .strV inactiveTxt),
              (flKey num nameTxt, .strV dashTxt),
              (flKey num leftTxt, .strV dashTxt),
              (flKey num topTxt, .strV dashTxt),
              (flKey num widthTxt, .strV dashTxt),
              (flKey num heightTxt, .strV dashTxt)], ⟨buf, pos + 4⟩)) := by
  refine ⟨fun h ht => ?_, fun h ht => ?_, fun h ht hn1 hn2 => ?_⟩
  · simpa using readFrameline_active buf pos num e 1 h ht (Or.inl rfl)
  · simpa using readFrameline_active buf pos num e 2 h ht (Or.inr rfl)
  · exact readFrameline_inactive buf pos num e t h ht hn1 hn2

/-- Witness for C8 on concrete buffers: the active record of flBuf
decodes to Master with name AB and integers 10 20 30 40 consuming 44
bytes, and a zero type code yields the placeholder record consuming 4
bytes. -/
theorem claim_C8_witness :
    readFrameline ⟨flBuf, 0⟩ oneATxt ByteOrder.big =
      .ok ([(flKey oneATxt typeTxt, .strV masterTxt),
            (flKey oneATxt nameTxt, .strV [65, 66]),
            (flKey oneATxt leftTxt, .intV 10),
            (flKey oneATxt topTxt, .intV 20),
            (flKey oneATxt widthTxt, .intV 30),
            (flKey oneATxt heightTxt, .intV 40)], ⟨flBuf, 44⟩)
    ∧ readFrameline ⟨inactBuf, 0⟩ oneATxt ByteOrder.big =
      .ok ([(flKey oneATxt typeTxt, .strV inactiveTxt),
            (flKey oneATxt nameTxt, .strV dashTxt),
            (flKey oneATxt leftTxt, .strV dashTxt),
            (flKey oneATxt topTxt, .strV dashTxt),
            (flKey oneATxt widthTxt, .strV dashTxt),
            (flKey oneATxt heightTxt, .strV dashTxt)], ⟨inactBuf, 4⟩) := by
  constructor
  · have h := (claim_C8_frameline flBuf 0 oneATxt .big 0).1 (by decide) (by decide)
    rw [h]
    have hnb : removeNul (rstripNul (utf8DecodeIgnore (bufSlice flBuf 4 32))) = [65, 66] := by
      rw [utf8_ascii _ (by decide)]; decide
    simp only [show (ByteOrder.big = ByteOrder.little) = False by simp, if_false,
      ite_false, hnb]
    decide
  · exact (claim_C8_frameline inactBuf 0 oneATxt .big 0).2.2 (by decide) (by decide)
      (by decide) (by decide)

/-- C1 (evaluation of the code at the failing input): the conversion
helper itself maps the signed values -3, -2 and -1 to the documented
labels, but the byte-level reader interprets its 4 bytes unsigned, so
the byte pattern FF FF FF FF (the signed 32-bit encoding of -1)
produces the raw value 4294967295 at either byte order and takes the
exponential-formula branch instead of returning the Invalid label;
indeed the raw value of any byte input is nonnegative, so no byte input
can reach the sentinel branch. -/
theorem claim_C1_tstop_unsigned_read :
    convertDataToTstop (-3) = .sentinel nearCloseTxt
    ∧ convertDataToTstop (-2) = .sentinel closeTxt
    ∧ convertDataToTstop (-1) = .sentinel invalidTxt
    ∧ (readTstop ⟨[0xFF, 0xFF, 0xFF, 0xFF], 0⟩ .little).1 = .formula 4294967295
    ∧ (readTstop ⟨[0xFF, 0xFF, 0xFF, 0xFF], 0⟩ .big).1 = .formula 4294967295
    ∧ ∀ (c : Cursor) (e : ByteOrder), 0 ≤ (readTstopRaw c e).1 := by
  refine ⟨by decide, by decide, by decide, by decide, by decide, ?_⟩
  intro c e
  simp [readTstopRaw]

theorem natDigits_lt10 (n : Nat) (h : n ≤ 9) : natDigits n = [48 + n] := by
  interval_cases n <;> decide

/-- C7: BCD decoding emits per byte the decimal digits of the high then
the low nibble, reverses the whole-byte order exactly when the resolved
order is big-endian (so the big-endian decode of a byte list equals the
little-endian decode of its reversal, for every shape, spacer and
prefix), slices the resulting 8-digit string per shape, and on the bytes
12 34 56 78 yields 7856/34/12 (date, big), 1234/56/78 (date, little),
78:56:34:12 (time, big) and 12:34:56:78 (time, little). -/
theorem claim_C7_bcd (bcd : List Nat) (fmt : BcdFmt) (spacer : PyStr)
    (pfx : Option PyStr) (a b c d : Nat) :
    (bcdToStr bcd fmt spacer .big pfx = bcdToStr bcd.reverse fmt spacer .little pfx)
    ∧ (a / 16 ≤ 9 → a % 16 ≤ 9 → b / 16 ≤ 9 → b % 16 ≤ 9 → c / 16 ≤ 9 → c % 16 ≤ 9 →
        d / 16 ≤ 9 → d % 16 ≤ 9 →
        bcdToStr [a, b, c, d] .date spacer .little none =
          [48 + a / 16, 48 + a % 16, 48 + b / 16, 48 + b % 16] ++ spacer
            ++ [48 + c / 16, 48 + c % 16] ++ spacer ++ [48 + d / 16, 48 + d % 16]
        ∧ bcdToStr [a, b, c, d] .time spacer .little none =
          [48 + a / 16, 48 + a % 16] ++ spacer ++ [48 + b / 16, 48 + b % 16] ++ spacer
            ++ [48 + c / 16, 48 + c % 16] ++ spacer ++ [48 + d / 16, 48 + d % 16]
        ∧ bcdToStr [a, b, c, d] .offset spacer .little pfx =
          pfx.getD [] ++ [48 + c / 16, 48 + c % 16] ++ spacer ++ [48 + d / 16, 48 + d % 16])
    ∧ bcdToStr [0x12, 0x34, 0x56, 0x78] .date slashTxt .big none
        = "7856/34/12".toList.map Char.toNat
    ∧ bcdToStr [0x12, 0x34, 0x56, 0x78] .date slashTxt .little none
        = "1234/56/78".toList.map Char.toNat
    ∧ bcdToStr [0x12, 0x34, 0x56, 0x78] .time colonTxt .big none
        = "78:56:34:12".toList.map Char.toNat
    ∧ bcdToStr [0x12, 0x34, 0x56, 0x78] .time colonTxt .little none
        = "12:34:56:78".toList.map Char.toNat := by
  refine ⟨?_, ?_, by decide, by decide, by decide, by decide⟩
  · have hds : bcdDigitString bcd .big = bcdDigitString bcd.reverse .little := by
      simp [bcdDigitString, List.map_reverse]
    cases fmt <;> simp [bcdToStr, hds]
  · intro h1 h2 h3 h4 h5 h6 h7 h8
    have e1 := natDigits_lt10 _ h1
    have e2 := natDigits_lt10 _ h2
    have e3 := natDigits_lt10 _ h3
    have e4 := natDigits_lt10 _ h4
    have e5 := natDigits_lt10 _ h5
    have e6 := natDigits_lt10 _ h6
    have e7 := natDigits_lt10 _ h7
    have e8 := natDigits_lt10 _ h8
    refine ⟨?_, ?_, ?_⟩ <;>
      simp [bcdToStr, bcdDigitString, bcdByteDigits, pySlice, e1, e2, e3, e4, e5, e6, e7, e8,
        List.take_append, List.drop_append]

/-- Witness for C7: the single-digit-nibble slicing part instantiated at
the bytes 12 34 56 78 with the slash spacer. -/
theorem claim_C7_witness :
    bcdToStr [0x12, 0x34, 0x56, 0x78] .date slashTxt .little none =
      [48 + 0x12 / 16, 48 + 0x12 % 16, 48 + 0x34 / 16, 48 + 0x34 % 16] ++ slashTxt
        ++ [48 + 0x56 / 16, 48 + 0x56 % 16] ++ slashTxt ++ [48 + 0x78 / 16, 48 + 0x78 % 16] := by
  exact ((claim_C7_bcd [] .date slashTxt none 0x12 0x34 0x56 0x78).2.1
    (by decide) (by decide) (by decide) (by decide)
    (by decide) (by decide) (by decide) (by decide)).1

theorem pySplit_ne_nil (sep : Nat) (s : PyStr) : pySplit sep s ≠ [] := by
  cases s with
  | nil => simp [pySplit]
  | cons c rest =>
    simp only [pySplit]
    cases pySplit sep rest with
    | nil => simp
    | cons h t =>
      by_cases hc : c = sep <;> simp [hc]

theorem pySplit_no_sep (sep : Nat) (s : PyStr) (h : sep ∉ s) : pySplit sep s = [s] := by
  induction s with
  | nil => simp [pySplit]
  | cons c rest ih =>
    have hc : c ≠ sep := fun hco => h (by simp [hco])
    have hr : sep ∉ rest := fun hm => h (by simp [hm])
    simp [pySplit, ih hr, hc]

theorem pySplit_append (sep : Nat) (x rest : PyStr) (h : sep ∉ x) :
    pySplit sep (x ++ sep :: rest) = x :: pySplit sep rest := by
  induction x with
  | nil =>
    simp only [List.nil_append, pySplit]
    cases hps : pySplit sep rest with
    | nil => exact absurd hps (pySplit_ne_nil sep rest)
    | cons hh tt => simp
  | cons c x2 ih =>
    have hc : c ≠ sep := fun hco => h (by simp [hco])
    have hx : sep ∉ x2 := fun hm => h (by simp [hm])
    show (match pySplit sep (x2 ++ sep :: rest) with
      | [] => [[]]
      | h :: t => if c = sep then [] :: h :: t else (c :: h) :: t)
      = (c :: x2) :: pySplit sep rest
    rw [ih hx]
    simp [hc]

/-- C10: in a user-string pair segment holding more than one colon, the
emitted value is only the stripped text between the first and the second
colon, whatever follows the second colon, and the key is the stripped
text before the first colon. -/
theorem claim_C10_user_string_pair (k v r : PyStr)
    (hk59 : 59 ∉ k) (hv59 : 59 ∉ v) (hr59 : 59 ∉ r) (hk58 : 58 ∉ k) (hv58 : 58 ∉ v) :
    splitUserString (k ++ 58 :: (v ++ 58 :: r)) = [(pyStrip k, pyStrip v)] := by
  have hall : (59 : Nat) ∉ k ++ 58 :: (v ++ 58 :: r) := by
    simp only [List.mem_append, List.mem_cons]
    push_neg
    exact ⟨hk59, by omega, hv59, by omega, hr59⟩
  have h58 : (58 : Nat) ∈ k ++ 58 :: (v ++ 58 :: r) := by simp
  have hsp : pySplit 58 (k ++ 58 :: (v ++ 58 :: r)) = k :: v :: pySplit 58 r := by
    rw [pySplit_append 58 k _ hk58, pySplit_append 58 v r hv58]
  simp [splitUserString, pySplit_no_sep 59 _ hall, h58, hsp]

/-- Witness for C10 at the concrete segment k:a:b, which maps the key k
to the value a, discarding :b. -/
theorem claim_C10_witness :
    splitUserString ([107] ++ 58 :: ([97] ++ 58 :: [98])) = [([107], [97])] := by
  have h := claim_C10_user_string_pair [107] [97] [98]
    (by decide) (by decide) (by decide) (by decide) (by decide)
  simpa [pyStrip, pyIsSpace] using h

/-- C6: on a buffer of at least 8 bytes, endianness detection reads
bytes 4..8 as an unsigned 32-bit little-endian integer, returns the
little-endian token iff that integer equals 0x12345678 (else the
big-endian token), and the result does not depend on the 4 magic
bytes. -/
theorem claim_C6_determine_endianness (magic magic2 rest : List Nat)
    (h1 : magic.length = 4) (h2 : magic2.length = 4) (h3 : 4 ≤ rest.length) :
    determineEndianness (magic ++ rest) =
      .ok (if leVal (rest.take 4) = 0x12345678 then ByteOrder.little else ByteOrder.big)
    ∧ determineEndianness (magic2 ++ rest) = determineEndianness (magic ++ rest) := by
  have key : ∀ m : List Nat, m.length = 4 →
      determineEndianness (m ++ rest) =
        .ok (if leVal (rest.take 4) = 0x12345678 then ByteOrder.little else ByteOrder.big) := by
    intro m hm
    have hdrop0 : (m ++ rest).drop 0 = m ++ rest := rfl
    have htake : (m ++ rest).take 4 = m := by
      rw [← hm]; exact List.take_left m rest
    have hlen4 : ((m ++ rest).take 4).length = 4 := by rw [htake, hm]
    have hdrop : (m ++ rest).drop 4 = rest := by
      rw [← hm]; exact List.drop_left m rest
    have htl : (rest.take 4).length = 4 := by
      simp [List.length_take]; omega
    simp only [determineEndianness, curRead, readAndUnpackC, hdrop0, List.drop_zero,
      hlen4, hdrop, htl, orderVal]
    simp [hlen4, htl, hdrop]
  refine ⟨key magic h1, ?_⟩
  rw [key magic h1, key magic2 h2]

/-- Witness for C6 at a concrete buffer: magic bytes 41 52 52 49 then
the order word 78 56 34 12, which reads little-endian as 0x12345678. -/
theorem claim_C6_witness :
    determineEndianness ([0x41, 0x52, 0x52, 0x49] ++ [0x78, 0x56, 0x34, 0x12]) =
      .ok ByteOrder.little := by
  have h := claim_C6_determine_endianness [0x41, 0x52, 0x52, 0x49] [0, 0, 0, 0]
      [0x78, 0x56, 0x34, 0x12] (by decide) (by decide) (by decide)
  have h1 := h.1
  rw [h1]
  norm_num [leVal]

/-! Dict lemmas. -/

theorem dictGet_insert_self (m : Dict) (k : PyStr) (v : Value) :
    dictGet (dictInsert m k v) k = some v := by
  induction m with
  | nil => simp [dictInsert, dictGet, List.find?]
  | cons p rest ih =>
    by_cases hp : p.1 == k
    · simp [dictInsert, hp, dictGet, List.find?]
    · simp only [dictInsert, hp, if_neg]
      simp only [dictGet, List.find?, hp] at ih ⊢
      simpa [hp] using ih

theorem dictGet_insert_ne (m : Dict) (k k2 : PyStr) (v : Value) (h : k ≠ k2) :
    dictGet (dictInsert m k v) k2 = dictGet m k2 := by
  have hbeq : (k == k2) = false := beq_false_of_ne h
  induction m with
  | nil => simp [dictInsert, dictGet, List.find?, hbeq]
  | cons p rest ih =>
    by_cases hp : p.1 == k
    · have hp2 : (p.1 == k2) = false := by
        have : p.1 = k := eq_of_beq hp
        rw [this]; exact hbeq
      simp [dictInsert, hp, dictGet, List.find?, hbeq, hp2]
    · by_cases hq : p.1 == k2
      · simp [dictInsert, hp, dictGet, List.find?, hq]
      · simp only [dictInsert, hp, if_neg]
        simp only [dictGet, List.find?, hq] at ih ⊢
        simpa [hp, hq] using ih

theorem dictInsert_insert_same (m : Dict) (k : PyStr) (v w : Value) :
    dictInsert (dictInsert m k v) k w = dictInsert m k w := by
  induction m with
  | nil => simp [dictInsert]
  | cons p rest ih =>
    by_cases hp : p.1 == k
    · simp [dictInsert, hp]
    · simp [dictInsert, hp, ih]

theorem dictGet_update_not_mem (kvs : Dict) (k : PyStr)
    (h : ∀ p ∈ kvs, p.1 ≠ k) :
    ∀ m : Dict, dictGet (dictUpdate m kvs) k = dictGet m k := by
  induction kvs with
  | nil => intro m; rfl
  | cons q rest ih =>
    intro m
    have h1 : q.1 ≠ k := h q (by simp)
    have h2 : ∀ p ∈ rest, p.1 ≠ k := fun p hp => h p (by simp [hp])
    show dictGet (dictUpdate (dictInsert m q.1 q.2) rest) k = dictGet m k
    rw [ih h2 (dictInsert m q.1 q.2), dictGet_insert_ne m q.1 k q.2 h1]

/-! Facts about the extraction loop. -/

theorem extractFrom_ok_handle (buf : List Nat) (dflt : ByteOrder)
    (allow : Option (List PyStr)) :
    ∀ (fs : List Field) (m0 m : Dict),
      extractFrom buf dflt allow fs m0 = .ok m →
      ∀ f ∈ fs, isSelected allow f = true →
      ∃ out, handleField buf f (f.endianness.getD dflt) = .ok out := by
  intro fs
  induction fs with
  | nil => intro m0 m h f hf; simp at hf
  | cons g rest ih =>
    intro m0 m h f hf hsel
    simp only [extractFrom] at h
    by_cases hg : isSelected allow g = true
    · rw [if_pos hg] at h
      cases hstep : extractStep buf dflt m0 g with
      | error err => rw [hstep] at h; cases h
      | ok m1 =>
        rw [hstep] at h
        rcases List.mem_cons.mp hf with rfl | hf2
        · simp only [extractStep] at hstep
          cases hh : handleField buf f (f.endianness.getD dflt) with
          | error err => rw [hh] at hstep; cases hstep
          | ok out => exact ⟨out, rfl⟩
        · exact ih m1 m h f hf2 hsel
    · rw [if_neg hg] at h
      rcases List.mem_cons.mp hf with rfl | hf2
      · exact absurd hsel hg
      · exact ih m0 m h f hf2 hsel

theorem extractFrom_append (buf : List Nat) (dflt : ByteOrder)
    (allow : Option (List PyStr)) (xs ys : List Field) :
    ∀ m0, extractFrom buf dflt allow (xs ++ ys) m0 =
      match extractFrom buf dflt allow xs m0 with
      | .error err => .error err
      | .ok m1 => extractFrom buf dflt allow ys m1 := by
  induction xs with
  | nil => intro m0; simp [extractFrom]
  | cons g rest ih =>
    intro m0
    simp only [List.cons_append, extractFrom]
    by_cases hg : isSelected allow g = true
    · rw [if_pos hg, if_pos hg]
      cases extractStep buf dflt m0 g with
      | error err => simp
      | ok m1 => simp [ih m1]
    · rw [if_neg hg, if_neg hg]; exact ih m0

theorem extractStep_preserve (buf : List Nat) (dflt : ByteOrder) (g : Field)
    (m m2 : Dict) (k : PyStr) (h : extractStep buf dflt m g = .ok m2)
    (hk : ∀ k2 ∈ stepKeys buf dflt g, k2 ≠ k) :
    dictGet m2 k = dictGet m k := by
  simp only [extractStep] at h
  cases hh : handleField buf g (g.endianness.getD dflt) with
  | error err => rw [hh] at h; cases h
  | ok out =>
    rw [hh] at h
    dsimp only at h
    have hout : ∀ p ∈ out, p.1 ≠ k := by
      intro p hp
      apply hk
      simp only [stepKeys, hh, List.mem_append, List.mem_map]
      exact Or.inl ⟨p, hp, rfl⟩
    cases hmap : g.mapping with
    | none =>
      try rw [hmap] at h
      dsimp only at h
      rw [← Except.ok.inj h]
      exact dictGet_update_not_mem out k hout m
    | some tbl =>
      try rw [hmap] at h
      dsimp only at h
      cases hget : dictGet (dictUpdate m out) g.name with
      | none => rw [hget] at h; cases h
      | some v =>
        rw [hget] at h
        have hname : g.name ≠ k := by
          apply hk
          simp [stepKeys, hh, hmap]
        rw [← Except.ok.inj h, dictGet_insert_ne _ _ _ _ hname]
        exact dictGet_update_not_mem out k hout m

theorem extractFrom_preserve (buf : List Nat) (dflt : ByteOrder)
    (allow : Option (List PyStr)) (k : PyStr) :
    ∀ (fs : List Field) (m0 m : Dict),
      extractFrom buf dflt allow fs m0 = .ok m →
      (∀ g ∈ fs, isSelected allow g = true → ∀ k2 ∈ stepKeys buf dflt g, k2 ≠ k) →
      dictGet m k = dictGet m0 k := by
  intro fs
  induction fs with
  | nil =>
    intro m0 m h hks
    simp only [extractFrom] at h
    rw [← Except.ok.inj h]
  | cons g rest ih =>
    intro m0 m h hks
    simp only [extractFrom] at h
    by_cases hg : isSelected allow g = true
    · rw [if_pos hg] at h
      cases hstep : extractStep buf dflt m0 g with
      | error err => rw [hstep] at h; cases h
      | ok m1 =>
        rw [hstep] at h
        have e1 := ih m1 m h (fun g2 hg2 => hks g2 (by simp [hg2]))
        have e2 := extractStep_preserve buf dflt g m0 m1 k hstep
          (hks g (by simp) hg)
        rw [e1, e2]
    · rw [if_neg hg] at h
      exact ih m0 m h (fun g2 hg2 => hks g2 (by simp [hg2]))

theorem lookup_mem (tbl : List (Nat × PyStr)) (n : Nat) (lbl : PyStr)
    (h : tbl.lookup n = some lbl) : (n, lbl) ∈ tbl := by
  induction tbl with
  | nil => simp [List.lookup] at h
  | cons p rest ih =>
    by_cases hp : n == p.1
    · simp only [List.lookup, hp] at h
      have h1 : n = p.1 := eq_of_beq hp
      have h2 : p.2 = lbl := by simpa using h
      have h3 : (n, lbl) = p := by rw [h1, ← h2]
      rw [h3]
      exact List.mem_cons_self _ _
    · simp only [List.lookup, hp] at h
      exact List.mem_cons_of_mem _ (ih h)

theorem mappingGet_spec (tbl : List (Nat × PyStr)) (v : Value) :
    (∃ n lbl, (n, lbl) ∈ tbl ∧ mappingGet tbl v = .strV lbl)
    ∨ mappingGet tbl v = .strV unknownTxt := by
  cases v with
  | intV n =>
    cases hl : tbl.lookup n with
    | none => right; simp [mappingGet, hl]
    | some lbl =>
      left
      exact ⟨n, lbl, lookup_mem tbl n lbl hl, by simp [mappingGet, hl]⟩
  | strV s => right; rfl
  | tstopNum d => right; rfl

/-- C4: after an extraction succeeds, the entry stored under the name of
a selected field that declares an enumeration table (and whose name no
later selected field writes again) is a label of the table or the
Unknown sentinel, never the raw decoded value. -/
theorem claim_C4_enum_mapping (buf : List Nat) (dflt : ByteOrder)
    (allow : Option (List PyStr)) (pre post : List Field) (f : Field)
    (tbl : List (Nat × PyStr)) (m : Dict)
    (hmap : f.mapping = some tbl) (hsel : isSelected allow f = true)
    (hok : extractMetadata buf (pre ++ f :: post) allow dflt = .ok m)
    (hlater : ∀ g ∈ post, isSelected allow g = true →
      ∀ k ∈ stepKeys buf dflt g, k ≠ f.name) :
    ∃ v, dictGet m f.name = some v ∧
      ((∃ n lbl, (n, lbl) ∈ tbl ∧ v = .strV lbl) ∨ v = .strV unknownTxt) := by
  unfold extractMetadata at hok
  rw [extractFrom_append buf dflt allow pre (f :: post) []] at hok
  cases hpre : extractFrom buf dflt allow pre [] with
  | error err => rw [hpre] at hok; cases hok
  | ok m1 =>
    rw [hpre] at hok
    simp only [extractFrom] at hok
    rw [if_pos hsel] at hok
    cases hstep : extractStep buf dflt m1 f with
    | error err => rw [hstep] at hok; cases hok
    | ok m2 =>
      rw [hstep] at hok
      have hval : ∃ v0, dictGet m2 f.name = some (mappingGet tbl v0) := by
        simp only [extractStep] at hstep
        cases hh : handleField buf f (f.endianness.getD dflt) with
        | error err => rw [hh] at hstep; cases hstep
        | ok out =>
          rw [hh] at hstep
          dsimp only at hstep
          rw [hmap] at hstep
          dsimp only at hstep
          cases hget : dictGet (dictUpdate m1 out) f.name with
          | none => rw [hget] at hstep; cases hstep
          | some v0 =>
            rw [hget] at hstep
            exact ⟨v0, by rw [← Except.ok.inj hstep]; exact dictGet_insert_self _ _ _⟩
      obtain ⟨v0, hv0⟩ := hval
      have hpres : dictGet m f.name = dictGet m2 f.name :=
        extractFrom_preserve buf dflt allow f.name post m2 m hok hlater
      refine ⟨mappingGet tbl v0, by rw [hpres, hv0], ?_⟩
      rcases mappingGet_spec tbl v0 with ⟨n, lbl, hmem, he⟩ | he
      · exact Or.inl ⟨n, lbl, hmem, he⟩
      · exact Or.inr he

/-- Witness for C4 on a one-field catalog over the buffer 07: the stored
entry is the label Seven from the table. -/
theorem claim_C4_witness :
    ∃ v, dictGet [(gTxt, Value.strV sevenLbl)] mapFld.name = some v ∧
      ((∃ n lbl, (n, lbl) ∈ [(7, sevenLbl)] ∧ v = .strV lbl)
        ∨ v = .strV unknownTxt) := by
  exact claim_C4_enum_mapping [7] .big none [] [] mapFld [(7, sevenLbl)]
    [(gTxt, Value.strV sevenLbl)] rfl rfl (by decide) (by simp)

theorem claim_C3_counterexample :
    demoBuf.length < strFld.offset + 5
    ∧ extractMetadata demoBuf [strFld] none ByteOrder.big = .ok [(fTxt, .strV [65, 66])] := by
  refine ⟨by decide, ?_⟩
  have hs : (readStringC ⟨demoBuf, 0⟩ 5 ByteOrder.big).1 = [65, 66] := by
    simp only [readStringC, curRead]
    rw [show ((demoBuf.drop 0).take 5) = [65, 66] from rfl]
    simp only [show (ByteOrder.big = ByteOrder.little) = False by simp, ite_false]
    rw [utf8_ascii [65, 66] (by decide)]
    decide
  simp [extractMetadata, extractFrom, extractStep, handleField, isSelected, hs,
    dictUpdate, dictInsert, strFld]

/-- C3 amended: a selected field decoded through struct unpacking (the
scalar numeric formats) whose offset plus size exceeds the buffer length
aborts the whole extraction with no partial result; fields decoded
through plain stream reads (string, user string, TStop, timecode and
BCD shapes) instead decode whatever bytes remain, silently truncated. -/
theorem claim_C3_amended (buf : List Nat) (fields : List Field)
    (allow : Option (List PyStr)) (dflt : ByteOrder) (f : Field) (size : Nat)
    (hf : f ∈ fields) (hsel : isSelected allow f = true)
    (hdt : f.datatype = .uint size) (hpos : 0 < size)
    (hlen : buf.length < f.offset + size) :
    isOkE (extractMetadata buf fields allow dflt) = false := by
  cases hres : extractMetadata buf fields allow dflt with
  | error err => rfl
  | ok m =>
    exfalso
    obtain ⟨out, hout⟩ := extractFrom_ok_handle buf dflt allow fields [] m hres f hf hsel
    have hh : handleField buf f (f.endianness.getD dflt) = .error .structShort := by
      simp only [handleField, hdt]
      rw [readAndUnpackC_short buf f.offset size (f.endianness.getD dflt) hpos hlen]
    rw [hh] at hout
    cases hout

/-- Witness for the amended C3: a 4-byte scalar field over the empty
buffer makes the whole extraction fail. -/
theorem claim_C3_amended_witness :
    isOkE (extractMetadata [] [shortFld] none ByteOrder.big) = false :=
  claim_C3_amended [] [shortFld] none ByteOrder.big shortFld 4
    (by simp) rfl rfl (by decide) (by decide)

/-! Per-field contributions and the allow-list claim. -/

theorem handleField_singleton (buf : List Nat) (f : Field) (e : ByteOrder)
    (h : writesOwnName f.datatype = true) (out : List (PyStr × Value))
    (hh : handleField buf f e = .ok out) : ∃ v, out = [(f.name, v)] := by
  cases hdt : f.datatype with
  | uint size =>
    simp only [handleField, hdt] at hh
    cases hr : readAndUnpackC ⟨buf, f.offset⟩ size e with
    | error err => rw [hr] at hh; cases hh
    | ok p => rw [hr] at hh; exact ⟨_, (Except.ok.inj hh).symm⟩
  | strT len => simp only [handleField, hdt] at hh; exact ⟨_, (Except.ok.inj hh).symm⟩
  | userStrT len => rw [hdt] at h; simp [writesOwnName] at h
  | tstopT => simp only [handleField, hdt] at hh; exact ⟨_, (Except.ok.inj hh).symm⟩
  | framelineT num => rw [hdt] at h; simp [writesOwnName] at h
  | dateT => simp only [handleField, hdt] at hh; exact ⟨_, (Except.ok.inj hh).symm⟩
  | timeT => simp only [handleField, hdt] at hh; exact ⟨_, (Except.ok.inj hh).symm⟩
  | offsetT pfx => simp only [handleField, hdt] at hh; exact ⟨_, (Except.ok.inj hh).symm⟩
  | timecodeT => simp only [handleField, hdt] at hh; exact ⟨_, (Except.ok.inj hh).symm⟩

theorem extractStep_eq_update (buf : List Nat) (dflt : ByteOrder) (m : Dict) (f : Field)
    (h : f.mapping = none ∨ writesOwnName f.datatype = true) :
    extractStep buf dflt m f =
      match fieldOutput buf dflt f with
      | .error err => .error err
      | .ok out => .ok (dictUpdate m out) := by
  simp only [extractStep, fieldOutput]
  cases hh : handleField buf f (f.endianness.getD dflt) with
  | error err => rfl
  | ok out =>
    cases hmap : f.mapping with
    | none => rfl
    | some tbl =>
      have hw : writesOwnName f.datatype = true := by
        rcases h with h | h
        · rw [h] at hmap; cases hmap
        · exact h
      obtain ⟨v, rfl⟩ := handleField_singleton buf f _ hw out hh
      dsimp only
      have e1 : dictUpdate m [(f.name, v)] = dictInsert m f.name v := rfl
      have e0 : dictUpdate [] [(f.name, v)] = [(f.name, v)] := rfl
      have e2 : dictGet [(f.name, v)] f.name = some v := by
        simp [dictGet, List.find?]
      rw [e1, e0, dictGet_insert_self m f.name v, e2]
      dsimp only
      have e3 : dictInsert [(f.name, v)] f.name (mappingGet tbl v)
          = [(f.name, mappingGet tbl v)] := by
        simp [dictInsert]
      have e4 : dictUpdate m [(f.name, mappingGet tbl v)]
          = dictInsert m f.name (mappingGet tbl v) := rfl
      rw [e3, e4, dictInsert_insert_same]

theorem extractFrom_eq_outputs (buf : List Nat) (dflt : ByteOrder)
    (allow : Option (List PyStr)) :
    ∀ fs : List Field, (∀ f ∈ fs, f.mapping = none ∨ writesOwnName f.datatype = true) →
    ∀ m0, extractFrom buf dflt allow fs m0 =
      match fieldOutputs buf dflt (fs.filter (fun f => isSelected allow f)) with
      | .error err => .error err
      | .ok outs => .ok (outs.foldl dictUpdate m0) := by
  intro fs
  induction fs with
  | nil => intro h m0; simp [extractFrom, fieldOutputs]
  | cons g rest ih =>
    intro h m0
    have hg1 := h g (by simp)
    have hrest : ∀ f ∈ rest, f.mapping = none ∨ writesOwnName f.datatype = true :=
      fun f hf => h f (by simp [hf])
    by_cases hg : isSelected allow g = true
    · simp only [extractFrom]
      rw [if_pos hg, List.filter_cons_of_pos hg,
        extractStep_eq_update buf dflt m0 g hg1]
      cases hfo : fieldOutput buf dflt g with
      | error err => simp [fieldOutputs, hfo]
      | ok out =>
        simp only [hfo]
        rw [ih hrest (dictUpdate m0 out)]
        cases hfos : fieldOutputs buf dflt (rest.filter (fun f => isSelected allow f)) with
        | error err => simp [fieldOutputs, hfo, hfos]
        | ok outs => simp [fieldOutputs, hfo, hfos]
    · simp only [extractFrom]
      rw [if_neg hg, List.filter_cons_of_neg (by simpa using hg)]
      exact ih hrest m0

theorem fieldOutputs_filter (buf : List Nat) (dflt : ByteOrder) (p : Field → Bool) :
    ∀ (fs : List Field) (outs : List Dict), fieldOutputs buf dflt fs = .ok outs →
      fieldOutputs buf dflt (fs.filter p) =
        .ok (((fs.zip outs).filter (fun q => p q.1)).map (fun q => q.2)) := by
  intro fs
  induction fs with
  | nil =>
    intro outs h
    simp only [fieldOutputs] at h
    rw [← Except.ok.inj h]
    simp [fieldOutputs]
  | cons g rest ih =>
    intro outs h
    simp only [fieldOutputs] at h
    cases hfo : fieldOutput buf dflt g with
    | error err => rw [hfo] at h; cases h
    | ok out =>
      rw [hfo] at h
      cases hfos : fieldOutputs buf dflt rest with
      | error err => rw [hfos] at h; cases h
      | ok outs2 =>
        rw [hfos] at h
        rw [← Except.ok.inj h]
        by_cases hp : p g = true
        · rw [List.filter_cons_of_pos hp]
          simp only [fieldOutputs, hfo, ih outs2 hfos]
          simp [hp]
        · rw [List.filter_cons_of_neg (by simpa using hp)]
          simp [ih outs2 hfos, hp]

/-- C5: when the unfiltered extraction succeeds (over a catalog whose
mapping-bearing fields write their own name), there is one list of
per-field outputs, each a function of the buffer, the descriptor and the
default order alone, such that the unfiltered result folds all of them
and the extraction with any allow-list succeeds and folds exactly the
outputs of the allowed fields — so filtering only skips fields and never
changes the decoded value of an included field. -/
theorem claim_C5_allowlist (buf : List Nat) (dflt : ByteOrder) (fields : List Field)
    (allow : List PyStr) (mFull : Dict)
    (h1 : ∀ f ∈ fields, f.mapping = none ∨ writesOwnName f.datatype = true)
    (hok : extractMetadata buf fields none dflt = .ok mFull) :
    ∃ outs : List Dict,
      fieldOutputs buf dflt fields = .ok outs
      ∧ mFull = outs.foldl dictUpdate []
      ∧ extractMetadata buf fields (some allow) dflt =
        .ok ((((fields.zip outs).filter (fun q => isSelected (some allow) q.1)).map
          (fun q => q.2)).foldl dictUpdate []) := by
  unfold extractMetadata at hok ⊢
  rw [extractFrom_eq_outputs buf dflt none fields h1 []] at hok
  have hfilt : fields.filter (fun f => isSelected none f) = fields := by
    simp [isSelected]
  rw [hfilt] at hok
  cases hfos : fieldOutputs buf dflt fields with
  | error err => rw [hfos] at hok; cases hok
  | ok outs =>
    rw [hfos] at hok
    refine ⟨outs, rfl, (Except.ok.inj hok).symm, ?_⟩
    rw [extractFrom_eq_outputs buf dflt (some allow) fields h1 [],
      fieldOutputs_filter buf dflt (fun f => isSelected (some allow) f) fields outs hfos]

/-- Witness for C5 on a two-field catalog over the buffer 07 09: the
allow-list holding only the first name yields exactly that field with
the same decoded value as in the unfiltered extraction. -/
theorem claim_C5_witness :
    extractMetadata [7, 9] [fldA, fldB] (some [aTxt]) ByteOrder.big =
      .ok [(aTxt, Value.intV 7)] := by
  obtain ⟨outs, ho, hm, hf⟩ := claim_C5_allowlist [7, 9] .big [fldA, fldB] [aTxt]
    [(aTxt, Value.intV 7), (bTxt, Value.intV 9)] (by decide) (by decide)
  have hcalc : fieldOutputs [7, 9] ByteOrder.big [fldA, fldB] =
      .ok [[(aTxt, Value.intV 7)], [(bTxt, Value.intV 9)]] := by decide
  rw [hcalc] at ho
  rw [(Except.ok.inj ho).symm] at hf
  exact hf.trans (by decide)

/-! The constructor type check. -/

theorem determineEndianness_len (buf : List Nat) (h : 8 ≤ buf.length) :
    determineEndianness buf =
      .ok (if leVal (bufSlice buf 4 4) = 0x12345678 then ByteOrder.little
        else ByteOrder.big) := by
  have h4 : curRead ⟨buf, 0⟩ 4 = (bufSlice buf 0 4, ⟨buf, 4⟩) := by
    have := curRead_eq buf 0 4 (by omega)
    simpa using this
  simp only [determineEndianness, h4]
  rw [readAndUnpackC_eq buf 4 4 .little (by omega)]
  simp [orderVal]

theorem determineEndianness_err (buf : List Nat) (e : Err)
    (h : determineEndianness buf = .error e) : e = .structShort := by
  simp only [determineEndianness, readAndUnpackC] at h
  by_cases hc : (curRead (curRead ⟨buf, 0⟩ 4).2 4).1.length = 4
  · rw [if_pos hc] at h; cases h
  · rw [if_neg hc] at h
    exact (Except.error.inj h).symm

/-- C9 counterexample: an io.BytesIO value is an open binary stream and
a bytearray is a byte sequence, yet the constructor rejects both with
the type error, because the type check accepts only the bytes class and
the io.BufferedReader class. -/
theorem claim_C9_counterexample :
    isOpenBinaryStream (PyValue.bytesIOStream demo9Buf) = true
    ∧ binaryFileInit (PyValue.bytesIOStream demo9Buf) = .error .badType
    ∧ isByteSequence (PyValue.byteArrayObj demo9Buf) = true
    ∧ binaryFileInit (PyValue.byteArrayObj demo9Buf) = .error .badType := by
  refine ⟨rfl, rfl, rfl, rfl⟩

/-- C9 amended: construction fails with the type error exactly when the
value is neither a bytes object nor an io.BufferedReader instance (other
binary streams and byte sequences are rejected); a bytes object or
BufferedReader whose content yields at least 8 bytes is accepted without
error. -/
theorem claim_C9_amended (v : PyValue) :
    (binaryFileInit v = .error .badType ↔
      ¬(isBytesObj v = true ∨ isBufferedReader v = true))
    ∧ (8 ≤ (pyValueData v).length →
        (isBytesObj v = true ∨ isBufferedReader v = true) →
        ∃ o, binaryFileInit v = .ok (pyValueData v, o)) := by
  cases v with
  | bytesObj d =>
    refine ⟨⟨fun h hc => ?_, fun h => absurd (Or.inl rfl) h⟩, fun hlen _ => ?_⟩
    · simp only [binaryFileInit, isBufferedReader, isBytesObj] at h
      cases hd : determineEndianness (pyValueData (PyValue.bytesObj d)) with
      | error err =>
        rw [hd] at h
        have := determineEndianness_err _ _ hd
        rw [this] at h
        cases h
      | ok o => rw [hd] at h; cases h
    · simp only [binaryFileInit, isBufferedReader, isBytesObj]
      rw [determineEndianness_len _ (by simpa using hlen)]
      exact ⟨_, rfl⟩
  | bufferedReader d =>
    refine ⟨⟨fun h hc => ?_, fun h => absurd (Or.inr rfl) h⟩, fun hlen _ => ?_⟩
    · simp only [binaryFileInit, isBufferedReader, isBytesObj] at h
      cases hd : determineEndianness (pyValueData (PyValue.bufferedReader d)) with
      | error err =>
        rw [hd] at h
        have := determineEndianness_err _ _ hd
        rw [this] at h
        cases h
      | ok o => rw [hd] at h; cases h
    · simp only [binaryFileInit, isBufferedReader, isBytesObj]
      rw [determineEndianness_len _ (by simpa using hlen)]
      exact ⟨_, rfl⟩
  | bytesIOStream d =>
    exact ⟨by simp [binaryFileInit, isBufferedReader, isBytesObj],
      fun _ hacc => by simp [isBytesObj, isBufferedReader] at hacc⟩
  | rawFileStream d =>
    exact ⟨by simp [binaryFileInit, isBufferedReader, isBytesObj],
      fun _ hacc => by simp [isBytesObj, isBufferedReader] at hacc⟩
  | byteArrayObj d =>
    exact ⟨by simp [binaryFileInit, isBufferedReader, isBytesObj],
      fun _ hacc => by simp [isBytesObj, isBufferedReader] at hacc⟩
  | noneObj =>
    exact ⟨by simp [binaryFileInit, isBufferedReader, isBytesObj],
      fun _ hacc => by simp [isBytesObj, isBufferedReader] at hacc⟩

/-- Witness for the amended C9: a BufferedReader over an 8-byte header
is accepted. -/
theorem claim_C9_witness :
    ∃ o, binaryFileInit (PyValue.bufferedReader demo9Buf) = .ok (demo9Buf, o) :=
  (claim_C9_amended (PyValue.bufferedReader demo9Buf)).2 (by decide) (Or.inr rfl)

end ArriRaw
